import Mathlib

/-!
filter-pipeline: a shallow embedding of `filter.go`.

The program filters a list of file names through a chain of goroutines
connected by buffered channels:

    sink(filterSize(minSize, maxSize, filterSuffixes(suffixes, source(files))))

Two views of the code are given.

* The stream view: a channel is identified with the list of values sent on it
  before it is closed, and every stage is the list function computed by its
  `for ... range` loop.
* The goroutine view: a transition system whose state holds the three
  channels, the program counters of the four goroutines and the lines printed
  so far; one transition is one channel operation of one goroutine.

Go strings are modelled as sequences of runes (`String`), `int64` values as
`Int` (no arithmetic is performed on them, only comparisons), and the file
system as a function from a path to the outcome of `os.Stat`.
-/

namespace FilterPipeline

/-! ## Library functions used by the code -/

/-- The test `'A' <= c && c <= 'Z'` of `strings.ToLower`. -/
def isUpperASCII (c : Char) : Bool := 'A' ≤ c && c ≤ 'Z'

/-- The ASCII branch of `unicode.ToLower`: `r += 'a' - 'A'` on `'A'..'Z'`. -/
def lowerASCII (c : Char) : Char :=
  if isUpperASCII c then Char.ofNat (c.toNat + 32) else c

/-- The rune mapping `unicode.ToLower`; the case table consulted for runes
above `unicode.MaxASCII` is the parameter `table`. -/
def unicodeToLower (table : Char → Char) (r : Char) : Char :=
  if r.toNat < 128 then lowerASCII r else table r

/-- The function `strings.ToLower`: a string of ASCII runes without an upper
case letter is returned as it is, an ASCII string is lowered rune by rune, and
any other string is mapped with `unicode.ToLower`. -/
def strings.ToLower (table : Char → Char) (s : String) : String :=
  if s.data.all (fun c => c.toNat < 128) then
    if s.data.any isUpperASCII then ⟨s.data.map lowerASCII⟩ else s
  else ⟨s.data.map (unicodeToLower table)⟩

/-- The loop of `filepath.Ext`, run from the last rune towards the first:
`rev` holds the runes not yet visited (last one first), `acc` the runes
already passed. The scan stops at a path separator, which is `/` (the Unix
build of `os.IsPathSeparator`). -/
def filepath.extScan : List Char → List Char → List Char
  | [], _ => []
  | c :: rev, acc =>
    if c = '/' then []
    else if c = '.' then c :: acc
    else filepath.extScan rev (c :: acc)

/-- The function `filepath.Ext`: the suffix of the last path element that
begins at its final dot, or the empty string. -/
def filepath.Ext (path : String) : String :=
  ⟨filepath.extScan path.data.reverse []⟩

/-- The loop of `strings.Split(s, ",")`: `cur` is the piece being read, in
reverse. -/
def strings.splitScan : List Char → List Char → List String
  | [], cur => [⟨cur.reverse⟩]
  | c :: cs, cur =>
    if c = ',' then ⟨cur.reverse⟩ :: strings.splitScan cs []
    else strings.splitScan cs (c :: cur)

/-- The call `strings.Split(s, ",")`. -/
def strings.Split (s : String) : List String :=
  strings.splitScan s.data []

/-! ## Command line -/

/-- The function `handleCommandLine`, after `flag.Parse` has stored the values
of `-min`, `-max`, `-suffixes` and the remaining arguments. An error is the
message given to `log.Fatalln`, which ends the process with status 1. -/
def handleCommandLine (minSize maxSize : Int) (suffixesOpt : String)
    (args : List String) : Except String (Int × Int × List String × List String) :=
  if minSize > maxSize ∧ maxSize ≠ -1 then
    Except.error "minimum size must be < maximum size"
  else
    let suffixes := if suffixesOpt ≠ "" then strings.Split suffixesOpt else []
    Except.ok (minSize, maxSize, suffixes, args)

/-! ## Stream view of the stages -/

/-- The loop `for filename := range in` with the body `out <- filename`. -/
def forward : List String → List String
  | [] => []
  | filename :: rest => filename :: forward rest

/-- The function `source`: the values sent on its output channel. -/
def source (files : List String) : List String :=
  forward files

/-- The inner loop of `filterSuffixes` for one file name: the values sent
while ranging over the suffixes, with the `break` after the first send. -/
def suffixSends (ext filename : String) : List String → List String
  | [] => []
  | suffix :: more =>
    if ext = suffix then [filename] else suffixSends ext filename more

/-- The body of the second loop of `filterSuffixes` for one received value. -/
def suffixBody (table : Char → Char) (suffixes : List String) (filename : String) :
    List String :=
  suffixSends (strings.ToLower table (filepath.Ext filename)) filename suffixes

/-- The second loop of `filterSuffixes`. -/
def suffixLoop (table : Char → Char) (suffixes : List String) : List String → List String
  | [] => []
  | filename :: rest => suffixBody table suffixes filename ++ suffixLoop table suffixes rest

/-- The function `filterSuffixes`: the values sent on its output channel. -/
def filterSuffixes (table : Char → Char) (suffixes : List String) (input : List String) :
    List String :=
  if suffixes.length = 0 then forward input else suffixLoop table suffixes input

/-- The body of the second loop of `filterSize` for one received value;
`stat filename` is `none` when `os.Stat` returns an error and `some size` with
`size = finfo.Size()` otherwise. -/
def sizeBody (stat : String → Option Int) (minSize maxSize : Int) (filename : String) :
    List String :=
  match stat filename with
  | none => []
  | some size =>
    if (minSize = -1 ∨ (-1 < minSize ∧ minSize < size)) ∧
       (maxSize = -1 ∨ (-1 < maxSize ∧ size < maxSize)) then [filename] else []

/-- The second loop of `filterSize`. -/
def sizeLoop (stat : String → Option Int) (minSize maxSize : Int) : List String → List String
  | [] => []
  | filename :: rest => sizeBody stat minSize maxSize filename ++ sizeLoop stat minSize maxSize rest

/-- The function `filterSize`: the values sent on its output channel. -/
def filterSize (stat : String → Option Int) (minSize maxSize : Int) (input : List String) :
    List String :=
  if minSize = -1 ∧ maxSize = -1 then forward input else sizeLoop stat minSize maxSize input

/-- The function `sink`: the lines printed. -/
def sink (input : List String) : List String :=
  forward input

/-- The function `main` on parsed flags: the lines printed, or the fatal
message of `handleCommandLine`. -/
def main (table : Char → Char) (stat : String → Option Int) (minFlag maxFlag : Int)
    (suffixesOpt : String) (args : List String) : Except String (List String) :=
  match handleCommandLine minFlag maxFlag suffixesOpt args with
  | Except.error msg => Except.error msg
  | Except.ok (minSize, maxSize, suffixes, files) =>
    Except.ok (sink (filterSize stat minSize maxSize (filterSuffixes table suffixes (source files))))

/-- The size test of `filterSize` as the code writes it, `false` when the
stat fails. -/
def sizeAdmits (stat : String → Option Int) (minSize maxSize : Int) (filename : String) : Bool :=
  match stat filename with
  | none => false
  | some size =>
    decide ((minSize = -1 ∨ (-1 < minSize ∧ minSize < size)) ∧
            (maxSize = -1 ∨ (-1 < maxSize ∧ size < maxSize)))

/-- The values the goroutine of `filterSuffixes` sends for one received value:
the branch on `len(suffixes) == 0` selects the copying loop or the matching
loop. -/
def suffixStage (table : Char → Char) (suffixes : List String) : String → List String :=
  if suffixes.length = 0 then fun filename => [filename] else suffixBody table suffixes

/-- The values the goroutine of `filterSize` sends for one received value: the
branch on `minSize == -1 && maxSize == -1` selects the copying loop or the
testing loop. -/
def sizeStage (stat : String → Option Int) (minSize maxSize : Int) : String → List String :=
  if minSize = -1 ∧ maxSize = -1 then fun filename => [filename]
  else sizeBody stat minSize maxSize

/-- A `for ... range` loop over a channel whose body sends `body filename`. -/
def runStage (body : String → List String) : List String → List String
  | [] => []
  | filename :: rest => body filename ++ runStage body rest

/-! ## Specification predicates -/

/-- An extension equals at least one configured suffix. -/
def suffixMatches (table : Char → Char) (suffixes : List String) (filename : String) : Bool :=
  decide (strings.ToLower table (filepath.Ext filename) ∈ suffixes)

/-- The size test as the specification words it: the stat succeeds, and
(minimum unset or minimum < size) and (maximum unset or size < maximum). -/
def sizeWithin (stat : String → Option Int) (minSize maxSize : Int) (filename : String) : Bool :=
  match stat filename with
  | none => false
  | some size => decide ((minSize = -1 ∨ minSize < size) ∧ (maxSize = -1 ∨ size < maxSize))

/-- The suffix stage forwards the item: fed the item alone, it sends it on. -/
def passesSuffixes (table : Char → Char) (suffixes : List String) (filename : String) : Bool :=
  decide (filterSuffixes table suffixes [filename] = [filename])

/-- The size stage forwards the item: fed the item alone, it sends it on. -/
def passesSize (stat : String → Option Int) (minSize maxSize : Int) (filename : String) : Bool :=
  decide (filterSize stat minSize maxSize [filename] = [filename])

/-! ## Goroutine view

One transition is one step of one goroutine: a send, one iteration of a
`range` over a channel (a receive, or leaving the loop once the channel is
closed and empty), a `close`, or one of the three calls by which `main` creates
a channel and starts a goroutine. A send on a full channel and a receive on an
empty open channel cannot be taken. A send on a closed channel or a second
`close` is a panic. When `main` returns the process ends and no goroutine runs
any further. -/

/-- A buffered channel of strings: the values sent and not yet received
(oldest first), the capacity given to `make`, whether `close` has been
executed, and how many times it was. -/
structure Chan where
  buf : List String
  cap : Nat
  closed : Bool
  closes : Nat
deriving DecidableEq

/-- The channel `make(chan string, cap)`. -/
def Chan.make (cap : Nat) : Chan :=
  { buf := [], cap := cap, closed := false, closes := 0 }

/-- The result of attempting one operation: it cannot be taken now, it panics,
or it completes. -/
inductive Outcome (α : Type) where
  | wait : Outcome α
  | panic : Outcome α
  | next : α → Outcome α

/-- Continue with `f` after a completed operation. -/
def Outcome.map {α β : Type} (f : α → β) : Outcome α → Outcome β
  | Outcome.wait => Outcome.wait
  | Outcome.panic => Outcome.panic
  | Outcome.next a => Outcome.next (f a)

/-- The statement `c <- x` on a buffered channel. -/
def Chan.send (c : Chan) (x : String) : Outcome Chan :=
  if c.closed then Outcome.panic
  else if c.buf.length < c.cap then Outcome.next { c with buf := c.buf ++ [x] }
  else Outcome.wait

/-- One iteration of `for x := range c`: the oldest value, or `none` when the
channel is closed and empty and the loop ends. -/
def Chan.recv (c : Chan) : Outcome (Option String × Chan) :=
  match c.buf with
  | x :: rest => Outcome.next (some x, { c with buf := rest })
  | [] => if c.closed then Outcome.next (none, c) else Outcome.wait

/-- The statement `close(c)`. -/
def Chan.close (c : Chan) : Outcome Chan :=
  if c.closed then Outcome.panic
  else Outcome.next { c with closed := true, closes := c.closes + 1 }

/-- Where a goroutine started by `go func()` stands: inside its loop, after
the loop and before `close(out)`, or ended. -/
inductive Pc where
  | looping : Pc
  | closing : Pc
  | finished : Pc
deriving DecidableEq

/-- A filter goroutine: its program counter and the sends of the current loop
iteration that are still to be executed. -/
structure Stage where
  pc : Pc
  pending : List String
deriving DecidableEq

/-- Where `main` stands: before each of the three nested calls (innermost
first), inside the loop of `sink`, or returned. -/
inductive MainPc where
  | callSource : MainPc
  | callFilterSuffixes : MainPc
  | callFilterSize : MainPc
  | sinking : MainPc
  | returned : MainPc
deriving DecidableEq

/-- The four goroutines of the program. -/
inductive Goroutine where
  | main : Goroutine
  | source : Goroutine
  | suffixes : Goroutine
  | size : Goroutine
deriving DecidableEq

/-- The state of the process: `files` holds the elements the loop of `source`
has not yet ranged over, `c1`, `c2`, `c3` are the output channels of `source`,
`filterSuffixes` and `filterSize`, and `printed` the lines written by `sink`. -/
structure State where
  mainPc : MainPc
  printed : List String
  files : List String
  srcPc : Pc
  sfx : Stage
  siz : Stage
  c1 : Chan
  c2 : Chan
  c3 : Chan
  panicked : Bool
deriving DecidableEq

/-- The state in which `main` is about to evaluate `source(files)`. No channel
has been made yet. -/
def State.init (files : List String) : State :=
  { mainPc := MainPc.callSource, printed := [], files := files, srcPc := Pc.looping,
    sfx := { pc := Pc.looping, pending := [] }, siz := { pc := Pc.looping, pending := [] },
    c1 := Chan.make 0, c2 := Chan.make 0, c3 := Chan.make 0, panicked := false }

/-- One step of the goroutine of `source`, which ranges over a slice. -/
def sourceStep (pc : Pc) (files : List String) (out : Chan) :
    Outcome (Pc × List String × Chan) :=
  match pc with
  | Pc.looping =>
    match files with
    | filename :: rest => (out.send filename).map (fun out1 => (Pc.looping, rest, out1))
    | [] => Outcome.next (Pc.closing, [], out)
  | Pc.closing => (out.close).map (fun out1 => (Pc.finished, files, out1))
  | Pc.finished => Outcome.wait

/-- One step of a filter goroutine whose loop body sends `body filename` for
the received `filename`. -/
def stageStep (body : String → List String) (st : Stage) (inp out : Chan) :
    Outcome (Stage × Chan × Chan) :=
  match st.pc with
  | Pc.looping =>
    match st.pending with
    | x :: rest =>
      (out.send x).map (fun out1 => ({ st with pending := rest }, inp, out1))
    | [] =>
      (inp.recv).map (fun r =>
        match r.1 with
        | some filename => ({ st with pending := body filename }, r.2, out)
        | none => ({ st with pc := Pc.closing }, r.2, out))
  | Pc.closing => (out.close).map (fun out1 => ({ st with pc := Pc.finished }, inp, out1))
  | Pc.finished => Outcome.wait

/-- One step of `main`: the three calls make a channel and start a goroutine,
then `sink` ranges over `c3` and prints. -/
def mainStep (s : State) : Outcome State :=
  match s.mainPc with
  | MainPc.callSource =>
    Outcome.next { s with mainPc := MainPc.callFilterSuffixes, c1 := Chan.make 1000 }
  | MainPc.callFilterSuffixes =>
    Outcome.next { s with mainPc := MainPc.callFilterSize, c2 := Chan.make s.c1.cap }
  | MainPc.callFilterSize =>
    Outcome.next { s with mainPc := MainPc.sinking, c3 := Chan.make s.c2.cap }
  | MainPc.sinking =>
    (s.c3.recv).map (fun r =>
      match r.1 with
      | some filename => { s with printed := s.printed ++ [filename], c3 := r.2 }
      | none => { s with mainPc := MainPc.returned, c3 := r.2 })
  | MainPc.returned => Outcome.wait

/-- Whether `main` has already executed the `go` statement of the goroutine. -/
def started (pc : MainPc) : Goroutine → Bool
  | Goroutine.main => true
  | Goroutine.source => decide (pc ≠ MainPc.callSource)
  | Goroutine.suffixes => decide (pc ≠ MainPc.callSource ∧ pc ≠ MainPc.callFilterSuffixes)
  | Goroutine.size => decide (pc = MainPc.sinking ∨ pc = MainPc.returned)

/-- The step of goroutine `g` alone, in state `s`. -/
def goStep (b1 b2 : String → List String) (s : State) : Goroutine → Outcome State
  | Goroutine.main => mainStep s
  | Goroutine.source =>
    (sourceStep s.srcPc s.files s.c1).map
      (fun r => { s with srcPc := r.1, files := r.2.1, c1 := r.2.2 })
  | Goroutine.suffixes =>
    (stageStep b1 s.sfx s.c1 s.c2).map
      (fun r => { s with sfx := r.1, c1 := r.2.1, c2 := r.2.2 })
  | Goroutine.size =>
    (stageStep b2 s.siz s.c2 s.c3).map
      (fun r => { s with siz := r.1, c2 := r.2.1, c3 := r.2.2 })

/-- The transition function: the state after goroutine `g` takes its next
step, or `none` when it cannot (not started, waiting on a channel, ended, or
the process is over). -/
def step (b1 b2 : String → List String) (g : Goroutine) (s : State) : Option State :=
  if s.panicked = true ∨ s.mainPc = MainPc.returned ∨ started s.mainPc g = false then none
  else
    match goStep b1 b2 s g with
    | Outcome.wait => none
    | Outcome.panic => some { s with panicked := true }
    | Outcome.next s1 => some s1

/-- The states reached from the start of `main` on `files`. -/
inductive Reachable (b1 b2 : String → List String) (files : List String) : State → Prop where
  | start : Reachable b1 b2 files (State.init files)
  | step (g : Goroutine) (s s1 : State) :
      Reachable b1 b2 files s → step b1 b2 g s = some s1 → Reachable b1 b2 files s1

/-- An execution of `n` transitions from one state to another. -/
inductive Steps (b1 b2 : String → List String) : Nat → State → State → Prop where
  | zero (s : State) : Steps b1 b2 0 s s
  | succ (n : Nat) (g : Goroutine) (s s1 s2 : State) :
      step b1 b2 g s = some s1 → Steps b1 b2 n s1 s2 → Steps b1 b2 (n + 1) s s2

/-- Run the goroutines named by a schedule, one step each in turn; a goroutine
that cannot step is skipped. -/
def runSchedule (b1 b2 : String → List String) : List Goroutine → State → State
  | [], s => s
  | g :: gs, s =>
    match step b1 b2 g s with
    | some s1 => runSchedule b1 b2 gs s1
    | none => runSchedule b1 b2 gs s

/-- The weight of a program counter of `main`: the steps it still has to take
apart from receiving. -/
def MainPc.weight : MainPc → Nat
  | MainPc.callSource => 4
  | MainPc.callFilterSuffixes => 3
  | MainPc.callFilterSize => 2
  | MainPc.sinking => 1
  | MainPc.returned => 0

/-- The weight of a program counter of a goroutine. -/
def Pc.weight : Pc → Nat
  | Pc.looping => 2
  | Pc.closing => 1
  | Pc.finished => 0

/-- A bound on the number of transitions still possible: every value weighs
the number of channel operations between its place and the printed output. -/
def State.measure (s : State) : Nat :=
  s.mainPc.weight + s.srcPc.weight + s.sfx.pc.weight + s.siz.pc.weight +
  6 * s.files.length + 5 * s.c1.buf.length + 4 * s.sfx.pending.length +
  3 * s.c2.buf.length + 2 * s.siz.pending.length + s.c3.buf.length +
  (if s.panicked then 0 else 1)

/-- The lines the process will have printed once everything in flight has gone
through the remaining stages. -/
def State.eventual (b1 b2 : String → List String) (s : State) : List String :=
  s.printed ++ s.c3.buf ++ s.siz.pending ++
    runStage b2 (s.c2.buf ++ s.sfx.pending ++ runStage b1 (s.c1.buf ++ s.files))

/-- The completed steps of a filter goroutine, one constructor per statement:
a send, a receive, leaving the loop, and `close(out)`. -/
inductive StageTrans (body : String → List String) :
    Stage → Chan → Chan → Stage → Chan → Chan → Prop where
  | send (st : Stage) (inp out : Chan) (x : String) (rest : List String) :
      st.pc = Pc.looping → st.pending = x :: rest → out.closed = false →
      out.buf.length < out.cap →
      StageTrans body st inp out { st with pending := rest } inp
        { out with buf := out.buf ++ [x] }
  | recv (st : Stage) (inp out : Chan) (x : String) (rest : List String) :
      st.pc = Pc.looping → st.pending = [] → inp.buf = x :: rest →
      StageTrans body st inp out { st with pending := body x } { inp with buf := rest } out
  | leave (st : Stage) (inp out : Chan) :
      st.pc = Pc.looping → st.pending = [] → inp.buf = [] → inp.closed = true →
      StageTrans body st inp out { st with pc := Pc.closing } inp out
  | close (st : Stage) (inp out : Chan) :
      st.pc = Pc.closing → out.closed = false →
      StageTrans body st inp out { st with pc := Pc.finished } inp
        { out with closed := true, closes := out.closes + 1 }

/-- The completed steps of the goroutine of `source`. -/
inductive SourceTrans : Pc → List String → Chan → Pc → List String → Chan → Prop where
  | send (pc : Pc) (files : List String) (out : Chan) (x : String) (rest : List String) :
      pc = Pc.looping → files = x :: rest → out.closed = false → out.buf.length < out.cap →
      SourceTrans pc files out Pc.looping rest { out with buf := out.buf ++ [x] }
  | leave (pc : Pc) (files : List String) (out : Chan) :
      pc = Pc.looping → files = [] →
      SourceTrans pc files out Pc.closing [] out
  | close (pc : Pc) (files : List String) (out : Chan) :
      pc = Pc.closing → out.closed = false →
      SourceTrans pc files out Pc.finished files
        { out with closed := true, closes := out.closes + 1 }

/-- The completed steps of `main`. -/
inductive MainTrans : State → State → Prop where
  | callSource (s : State) :
      s.mainPc = MainPc.callSource →
      MainTrans s { s with mainPc := MainPc.callFilterSuffixes, c1 := Chan.make 1000 }
  | callFilterSuffixes (s : State) :
      s.mainPc = MainPc.callFilterSuffixes →
      MainTrans s { s with mainPc := MainPc.callFilterSize, c2 := Chan.make s.c1.cap }
  | callFilterSize (s : State) :
      s.mainPc = MainPc.callFilterSize →
      MainTrans s { s with mainPc := MainPc.sinking, c3 := Chan.make s.c2.cap }
  | print (s : State) (x : String) (rest : List String) :
      s.mainPc = MainPc.sinking → s.c3.buf = x :: rest →
      MainTrans s { s with printed := s.printed ++ [x], c3 := { s.c3 with buf := rest } }
  | ret (s : State) :
      s.mainPc = MainPc.sinking → s.c3.buf = [] → s.c3.closed = true →
      MainTrans s { s with mainPc := MainPc.returned }

/-- The transitions of the process, by goroutine; `panic` is a send on a closed
channel or a second `close`. -/
inductive Trans (b1 b2 : String → List String) : State → State → Prop where
  | main (s s1 : State) : MainTrans s s1 → Trans b1 b2 s s1
  | source (s : State) (pc : Pc) (files : List String) (c : Chan) :
      s.mainPc ≠ MainPc.callSource →
      SourceTrans s.srcPc s.files s.c1 pc files c →
      Trans b1 b2 s { s with srcPc := pc, files := files, c1 := c }
  | suffixes (s : State) (st : Stage) (inp out : Chan) :
      s.mainPc ≠ MainPc.callSource → s.mainPc ≠ MainPc.callFilterSuffixes →
      StageTrans b1 s.sfx s.c1 s.c2 st inp out →
      Trans b1 b2 s { s with sfx := st, c1 := inp, c2 := out }
  | size (s : State) (st : Stage) (inp out : Chan) :
      s.mainPc = MainPc.sinking →
      StageTrans b2 s.siz s.c2 s.c3 st inp out →
      Trans b1 b2 s { s with siz := st, c2 := inp, c3 := out }
  | sourcePanic (s : State) :
      s.mainPc ≠ MainPc.callSource → s.srcPc ≠ Pc.finished → s.c1.closed = true →
      Trans b1 b2 s { s with panicked := true }
  | suffixesPanic (s : State) :
      s.mainPc ≠ MainPc.callSource → s.mainPc ≠ MainPc.callFilterSuffixes →
      s.sfx.pc ≠ Pc.finished → s.c2.closed = true →
      Trans b1 b2 s { s with panicked := true }
  | sizePanic (s : State) :
      s.mainPc = MainPc.sinking → s.siz.pc ≠ Pc.finished → s.c3.closed = true →
      Trans b1 b2 s { s with panicked := true }

/-- The invariant of the process: how the channels, the program counters and
the `close` counters are tied together in every reachable state. -/
structure Inv (s : State) : Prop where
  noPanic : s.panicked = false
  new1 : s.mainPc = MainPc.callSource → s.srcPc = Pc.looping ∧ s.c1 = Chan.make 0
  new2 : s.mainPc = MainPc.callSource ∨ s.mainPc = MainPc.callFilterSuffixes →
    s.sfx = { pc := Pc.looping, pending := [] } ∧ s.c2 = Chan.make 0
  new3 : s.mainPc ≠ MainPc.sinking → s.mainPc ≠ MainPc.returned →
    s.siz = { pc := Pc.looping, pending := [] } ∧ s.c3 = Chan.make 0
  cap1 : s.mainPc ≠ MainPc.callSource → s.c1.cap = 1000
  cap2 : s.mainPc ≠ MainPc.callSource → s.mainPc ≠ MainPc.callFilterSuffixes →
    s.c2.cap = 1000
  cap3 : s.mainPc = MainPc.sinking ∨ s.mainPc = MainPc.returned → s.c3.cap = 1000
  room1 : s.c1.buf.length ≤ s.c1.cap
  room2 : s.c2.buf.length ≤ s.c2.cap
  room3 : s.c3.buf.length ≤ s.c3.cap
  closed1 : s.c1.closed = true ↔ s.srcPc = Pc.finished
  closed2 : s.c2.closed = true ↔ s.sfx.pc = Pc.finished
  closed3 : s.c3.closed = true ↔ s.siz.pc = Pc.finished
  closes1 : s.c1.closes = if s.c1.closed then 1 else 0
  closes2 : s.c2.closes = if s.c2.closed then 1 else 0
  closes3 : s.c3.closes = if s.c3.closed then 1 else 0
  srcDone : s.srcPc ≠ Pc.looping → s.files = []
  sfxDone : s.sfx.pc ≠ Pc.looping →
    s.c1.closed = true ∧ s.c1.buf = [] ∧ s.sfx.pending = []
  sizDone : s.siz.pc ≠ Pc.looping →
    s.c2.closed = true ∧ s.c2.buf = [] ∧ s.siz.pending = []
  ret : s.mainPc = MainPc.returned → s.c3.closed = true ∧ s.c3.buf = []

/-- The schedule that lets `main`, `source`, `filterSuffixes` and `filterSize`
try one step each, `n` times over. -/
def roundRobin : Nat → List Goroutine
  | 0 => []
  | n + 1 =>
    Goroutine.main :: Goroutine.source :: Goroutine.suffixes :: Goroutine.size :: roundRobin n

/-- The process run under the round-robin schedule for as many rounds as the
measure of its initial state. -/
def runMain (b1 b2 : String → List String) (files : List String) : State :=
  runSchedule b1 b2 (roundRobin (State.init files).measure) (State.init files)

/-! ## Concrete worlds for evaluation -/

/-- A case table that leaves every rune above ASCII unchanged. -/
def plainTable : Char → Char := fun c => c

/-- A file system with `report.pdf` (500 bytes), `notes.txt` (5000 bytes) and
`image.png` (500 bytes); every other path fails to stat. -/
def scenarioStat (path : String) : Option Int :=
  if path = "report.pdf" then some 500
  else if path = "notes.txt" then some 5000
  else if path = "image.png" then some 500
  else none

/-- A file system with `a` (20 bytes), `b` (5 bytes) and `d` (7 bytes); `c` and
every other path fail to stat. -/
def abcdStat (path : String) : Option Int :=
  if path = "a" then some 20
  else if path = "b" then some 5
  else if path = "d" then some 7
  else none

/-! ## Library lemmas -/

theorem isUpperASCII_iff (c : Char) :
    isUpperASCII c = true ↔ 65 ≤ c.toNat ∧ c.toNat ≤ 90 := by
  simp only [isUpperASCII, Bool.and_eq_true, decide_eq_true_eq, Char.le_def]
  exact Iff.rfl

theorem lowerASCII_not_upper (c : Char) : isUpperASCII (lowerASCII c) = false := by
  unfold lowerASCII
  split
  · rename_i h
    have hc : c = Char.ofNat c.toNat := (Char.ofNat_toNat c).symm
    rw [isUpperASCII_iff] at h
    obtain ⟨h1, h2⟩ := h
    generalize c.toNat = n at *
    subst hc
    interval_cases n <;> decide
  · rename_i h
    simpa using h

theorem unicodeToLower_not_upper (table : Char → Char)
    (htable : ∀ c : Char, 128 ≤ c.toNat → isUpperASCII (table c) = false) (c : Char) :
    isUpperASCII (unicodeToLower table c) = false := by
  unfold unicodeToLower
  split
  · exact lowerASCII_not_upper c
  · exact htable c (by omega)

/-- No rune of a lowered string is an ASCII upper case letter, provided the
case table never yields one. -/
theorem ToLower_no_upper (table : Char → Char)
    (htable : ∀ c : Char, 128 ≤ c.toNat → isUpperASCII (table c) = false) (s : String) :
    (strings.ToLower table s).data.any isUpperASCII = false := by
  unfold strings.ToLower
  split
  · split
    · simp [List.any_map, Function.comp_def, lowerASCII_not_upper]
    · rename_i h
      simpa using h
  · simp [List.any_map, Function.comp_def, unicodeToLower_not_upper table htable]

/-! ## Stream view: the loops as list functions -/

theorem forward_eq (l : List String) : forward l = l := by
  induction l with
  | nil => rfl
  | cons x xs ih => simp [forward, ih]

theorem suffixSends_eq (ext filename : String) (suffixes : List String) :
    suffixSends ext filename suffixes = if ext ∈ suffixes then [filename] else [] := by
  induction suffixes with
  | nil => simp [suffixSends]
  | cons x xs ih =>
    unfold suffixSends
    by_cases h : ext = x
    · simp [h]
    · simp [h, ih]

theorem suffixBody_eq (table : Char → Char) (suffixes : List String) (filename : String) :
    suffixBody table suffixes filename =
      if suffixMatches table suffixes filename then [filename] else [] := by
  simp [suffixBody, suffixSends_eq, suffixMatches]

theorem suffixLoop_eq_filter (table : Char → Char) (suffixes input : List String) :
    suffixLoop table suffixes input = input.filter (suffixMatches table suffixes) := by
  induction input with
  | nil => rfl
  | cons x xs ih =>
    unfold suffixLoop
    rw [ih, suffixBody_eq, List.filter_cons]
    split <;> simp

theorem sizeLoop_append (stat : String → Option Int) (minSize maxSize : Int)
    (xs ys : List String) :
    sizeLoop stat minSize maxSize (xs ++ ys) =
      sizeLoop stat minSize maxSize xs ++ sizeLoop stat minSize maxSize ys := by
  induction xs with
  | nil => rfl
  | cons x xs ih => simp [sizeLoop, ih]

theorem sizeBody_eq (stat : String → Option Int) (minSize maxSize : Int) (filename : String) :
    sizeBody stat minSize maxSize filename =
      if sizeAdmits stat minSize maxSize filename then [filename] else [] := by
  unfold sizeBody sizeAdmits
  cases stat filename with
  | none => simp
  | some size => simp

theorem sizeLoop_eq_filter (stat : String → Option Int) (minSize maxSize : Int)
    (input : List String) :
    sizeLoop stat minSize maxSize input = input.filter (sizeAdmits stat minSize maxSize) := by
  induction input with
  | nil => rfl
  | cons x xs ih =>
    unfold sizeLoop
    rw [ih, sizeBody_eq, List.filter_cons]
    split <;> simp

/-- On the documented domain of the bounds the test of the code is the test of
the specification. -/
theorem sizeAdmits_eq_sizeWithin (stat : String → Option Int) (minSize maxSize : Int)
    (hmin : minSize = -1 ∨ 0 ≤ minSize) (hmax : maxSize = -1 ∨ 0 ≤ maxSize)
    (filename : String) :
    sizeAdmits stat minSize maxSize filename = sizeWithin stat minSize maxSize filename := by
  unfold sizeAdmits sizeWithin
  cases stat filename with
  | none => rfl
  | some size =>
    simp only [decide_eq_decide]
    constructor
    · rintro ⟨h1, h2⟩
      exact ⟨h1.imp id (fun h => h.2), h2.imp id (fun h => h.2)⟩
    · rintro ⟨h1, h2⟩
      refine ⟨?_, ?_⟩
      · rcases h1 with h | h
        · exact Or.inl h
        · rcases hmin with h0 | h0
          · exact Or.inl h0
          · exact Or.inr ⟨by omega, h⟩
      · rcases h2 with h | h
        · exact Or.inl h
        · rcases hmax with h0 | h0
          · exact Or.inl h0
          · exact Or.inr ⟨by omega, h⟩

theorem suffixStage_eq (table : Char → Char) (suffixes : List String) (filename : String) :
    suffixStage table suffixes filename =
      if passesSuffixes table suffixes filename then [filename] else [] := by
  unfold suffixStage passesSuffixes filterSuffixes
  by_cases h : suffixes.length = 0
  · simp [h, forward]
  · simp only [h, if_false, suffixLoop, List.append_nil, suffixBody_eq]
    by_cases hm : suffixMatches table suffixes filename = true
    · simp [hm]
    · simp [hm]

theorem sizeStage_eq (stat : String → Option Int) (minSize maxSize : Int) (filename : String) :
    sizeStage stat minSize maxSize filename =
      if passesSize stat minSize maxSize filename then [filename] else [] := by
  unfold sizeStage passesSize filterSize
  by_cases h : minSize = -1 ∧ maxSize = -1
  · simp [h, forward]
  · simp only [h, if_false, sizeLoop, List.append_nil, sizeBody_eq]
    by_cases hm : sizeAdmits stat minSize maxSize filename = true
    · simp [hm]
    · simp [hm]

theorem runStage_eq_filter (body : String → List String) (pass : String → Bool)
    (hbody : ∀ x, body x = if pass x then [x] else []) (input : List String) :
    runStage body input = input.filter pass := by
  induction input with
  | nil => rfl
  | cons x xs ih =>
    unfold runStage
    rw [ih, hbody, List.filter_cons]
    split <;> simp

theorem filterSuffixes_eq_runStage (table : Char → Char) (suffixes input : List String) :
    filterSuffixes table suffixes input = runStage (suffixStage table suffixes) input := by
  unfold filterSuffixes suffixStage
  by_cases h : suffixes.length = 0
  · simp only [h, if_true, forward_eq]
    rw [runStage_eq_filter _ (fun _ => true) (by simp)]
    simp
  · simp only [h, if_false]
    rw [suffixLoop_eq_filter, runStage_eq_filter _ _ (suffixBody_eq table suffixes)]

theorem filterSize_eq_runStage (stat : String → Option Int) (minSize maxSize : Int)
    (input : List String) :
    filterSize stat minSize maxSize input = runStage (sizeStage stat minSize maxSize) input := by
  unfold filterSize sizeStage
  by_cases h : minSize = -1 ∧ maxSize = -1
  · simp only [h, if_true, forward_eq]
    rw [runStage_eq_filter _ (fun _ => true) (by simp)]
    simp
  · simp only [h, if_false]
    rw [sizeLoop_eq_filter, runStage_eq_filter _ _ (sizeBody_eq stat minSize maxSize)]

theorem filterSuffixes_eq_filter_passes (table : Char → Char) (suffixes input : List String) :
    filterSuffixes table suffixes input = input.filter (passesSuffixes table suffixes) := by
  rw [filterSuffixes_eq_runStage, runStage_eq_filter _ _ (suffixStage_eq table suffixes)]

theorem filterSize_eq_filter_passes (stat : String → Option Int) (minSize maxSize : Int)
    (input : List String) :
    filterSize stat minSize maxSize input = input.filter (passesSize stat minSize maxSize) := by
  rw [filterSize_eq_runStage, runStage_eq_filter _ _ (sizeStage_eq stat minSize maxSize)]

/-- With a non-empty suffix list the stage keeps the items whose lowered
extension is one of the suffixes. -/
theorem filterSuffixes_matching (table : Char → Char) (suffixes input : List String)
    (hne : suffixes ≠ []) :
    filterSuffixes table suffixes input = input.filter (suffixMatches table suffixes) := by
  unfold filterSuffixes
  rw [if_neg (by simpa using hne), suffixLoop_eq_filter]

/-! ## Claims on the stream view -/

/-- C1 (code evaluated at the failing input): with `-min 100 -max 100` both
bounds are set and `minSize >= maxSize`, yet `handleCommandLine` does not call
`log.Fatalln`: it returns the configuration, because the guard tests
`minSize > maxSize` only. -/
theorem handleCommandLine_accepts_equal_bounds :
    handleCommandLine 100 100 "" ["a.txt"] = Except.ok (100, 100, [], ["a.txt"]) := by
  rfl

/-- C2: when each bound is `-1` or non-negative and not both are `-1`, the
output of `filterSize` is the input filtered, in order and with multiplicity,
by: the stat succeeds and (minSize = -1 or minSize < size) and (maxSize = -1 or
size < maxSize). Both comparisons are strict: an item whose size equals
`minSize` or `maxSize` is never forwarded (a size is a number of bytes, so it
is not the sentinel `-1`). -/
theorem filterSize_spec (stat : String → Option Int) (minSize maxSize : Int)
    (input : List String)
    (hmin : minSize = -1 ∨ 0 ≤ minSize) (hmax : maxSize = -1 ∨ 0 ≤ maxSize)
    (hset : ¬ (minSize = -1 ∧ maxSize = -1)) :
    filterSize stat minSize maxSize input = input.filter (sizeWithin stat minSize maxSize) ∧
    ∀ filename size, stat filename = some size → size ≠ -1 →
      size = minSize ∨ size = maxSize →
      filename ∉ filterSize stat minSize maxSize input := by
  have key : filterSize stat minSize maxSize input =
      input.filter (sizeWithin stat minSize maxSize) := by
    unfold filterSize
    rw [if_neg hset, sizeLoop_eq_filter]
    congr 1
    funext filename
    exact sizeAdmits_eq_sizeWithin stat minSize maxSize hmin hmax filename
  refine ⟨key, ?_⟩
  intro filename size hstat hreal hbound hmem
  rw [key, List.mem_filter] at hmem
  have hw := hmem.2
  simp only [sizeWithin, hstat, decide_eq_true_eq] at hw
  obtain ⟨h1, h2⟩ := hw
  omega

/-- Witness of C2: bounds `-1` and `500` on the three scenario files keep
nothing of size 500 or 5000. -/
theorem filterSize_spec_witness :
    filterSize scenarioStat (-1) 500 ["report.pdf", "notes.txt", "gone", "image.png"] =
      ["report.pdf", "notes.txt", "gone", "image.png"].filter (sizeWithin scenarioStat (-1) 500) ∧
    "report.pdf" ∉ filterSize scenarioStat (-1) 500 ["report.pdf", "notes.txt", "gone", "image.png"] :=
  have h := filterSize_spec scenarioStat (-1) 500 ["report.pdf", "notes.txt", "gone", "image.png"]
    (by decide) (by decide) (by decide)
  ⟨h.1, h.2 "report.pdf" 500 (by decide) (by decide) (by decide)⟩

/-- C3: for a non-empty suffix list the output of `filterSuffixes` is the
input filtered, in order, by: the lowercased extension equals at least one
configured suffix. Every occurrence of a matching item is forwarded exactly
once, also when several suffixes equal its extension, and nothing else is. -/
theorem filterSuffixes_spec (table : Char → Char) (suffixes input : List String)
    (hne : suffixes ≠ []) :
    filterSuffixes table suffixes input = input.filter (suffixMatches table suffixes) ∧
    ∀ filename, (filterSuffixes table suffixes input).count filename =
      if suffixMatches table suffixes filename then input.count filename else 0 := by
  have key := filterSuffixes_matching table suffixes input hne
  refine ⟨key, ?_⟩
  intro filename
  rw [key]
  by_cases h : suffixMatches table suffixes filename = true
  · rw [if_pos h, List.count_filter h]
  · rw [if_neg h, List.count_eq_zero]
    intro hmem
    exact h (List.mem_filter.mp hmem).2

/-- Witness of C3: a duplicated suffix sends a matching item once per
occurrence. -/
theorem filterSuffixes_spec_witness :
    filterSuffixes plainTable [".pdf", ".pdf"] ["a.pdf", "b.txt", "a.pdf"] =
      ["a.pdf", "b.txt", "a.pdf"].filter (suffixMatches plainTable [".pdf", ".pdf"]) ∧
    (filterSuffixes plainTable [".pdf", ".pdf"] ["a.pdf", "b.txt", "a.pdf"]).count "a.pdf" = 2 :=
  have h := filterSuffixes_spec plainTable [".pdf", ".pdf"] ["a.pdf", "b.txt", "a.pdf"]
    (by decide)
  ⟨h.1, (h.2 "a.pdf").trans (by decide)⟩

/-- C5: when at least one bound is set, an item whose stat fails is dropped by
`filterSize` and leaves the treatment of every other item unchanged. -/
theorem filterSize_stat_failure (stat : String → Option Int) (minSize maxSize : Int)
    (xs ys : List String) (p : String)
    (hset : minSize ≠ -1 ∨ maxSize ≠ -1) (hfail : stat p = none) :
    filterSize stat minSize maxSize (xs ++ [p] ++ ys) =
      filterSize stat minSize maxSize xs ++ filterSize stat minSize maxSize ys := by
  have hne : ¬ (minSize = -1 ∧ maxSize = -1) := by
    rintro ⟨h1, h2⟩
    rcases hset with h | h
    · exact h h1
    · exact h h2
  unfold filterSize
  simp only [if_neg hne, sizeLoop_append]
  have hp : sizeLoop stat minSize maxSize [p] = [] := by
    simp [sizeLoop, sizeBody, hfail]
  rw [hp, List.append_nil]

/-- Witness of C5: `gone` fails to stat between two files that pass. -/
theorem filterSize_stat_failure_witness :
    filterSize scenarioStat (-1) 2000 (["report.pdf"] ++ ["gone"] ++ ["image.png"]) =
      filterSize scenarioStat (-1) 2000 ["report.pdf"] ++
        filterSize scenarioStat (-1) 2000 ["image.png"] :=
  filterSize_stat_failure scenarioStat (-1) 2000 ["report.pdf"] ["image.png"] "gone"
    (by decide) (by decide)

/-- C6: with an empty suffix list `filterSuffixes` is the identity on its
input sequence. -/
theorem filterSuffixes_nil_identity (table : Char → Char) (input : List String) :
    filterSuffixes table [] input = input := by
  simp [filterSuffixes, forward_eq]

/-- C7: with both bounds equal to `-1`, `filterSize` is the identity on its
input sequence whatever the stat oracle answers, failures included. -/
theorem filterSize_unset_identity (stat : String → Option Int) (input : List String) :
    filterSize stat (-1) (-1) input = input := by
  simp [filterSize, forward_eq]

/-- C10: a bound below `-1` makes `filterSize` forward nothing, for every
input and every stat oracle. -/
theorem filterSize_negative_bound (stat : String → Option Int) (minSize maxSize : Int)
    (input : List String) (hneg : minSize < -1 ∨ maxSize < -1) :
    filterSize stat minSize maxSize input = [] := by
  have hne : ¬ (minSize = -1 ∧ maxSize = -1) := by omega
  unfold filterSize
  rw [if_neg hne, sizeLoop_eq_filter, List.filter_eq_nil_iff]
  intro filename _
  unfold sizeAdmits
  cases stat filename with
  | none => simp
  | some size =>
    simp only [decide_eq_true_eq]
    rintro ⟨h1, h2⟩
    omega

/-- Witness of C10: `-min -5` with no maximum drops files of every size. -/
theorem filterSize_negative_bound_witness :
    filterSize scenarioStat (-5) (-1) ["report.pdf", "notes.txt", "image.png"] = [] :=
  filterSize_negative_bound scenarioStat (-5) (-1) ["report.pdf", "notes.txt", "image.png"]
    (by decide)

/-! ## Goroutine view: the transitions of `step` -/

theorem outcome_map_eq_next {α β : Type} (f : α → β) (o : Outcome α) (b : β) :
    Outcome.map f o = Outcome.next b ↔ ∃ a, o = Outcome.next a ∧ f a = b := by
  cases o <;> simp [Outcome.map]

theorem outcome_map_eq_panic {α β : Type} (f : α → β) (o : Outcome α) :
    Outcome.map f o = Outcome.panic ↔ o = Outcome.panic := by
  cases o <;> simp [Outcome.map]

theorem outcome_map_eq_wait {α β : Type} (f : α → β) (o : Outcome α) :
    Outcome.map f o = Outcome.wait ↔ o = Outcome.wait := by
  cases o <;> simp [Outcome.map]

theorem chan_send_eq_next (c c1 : Chan) (x : String) :
    c.send x = Outcome.next c1 ↔
      c.closed = false ∧ c.buf.length < c.cap ∧ c1 = { c with buf := c.buf ++ [x] } := by
  unfold Chan.send
  by_cases h : c.closed = true
  · simp [h]
  · by_cases h2 : c.buf.length < c.cap
    · simp [h, h2, eq_comm]
    · simp [h, h2]

theorem chan_send_eq_panic (c : Chan) (x : String) :
    c.send x = Outcome.panic ↔ c.closed = true := by
  unfold Chan.send
  by_cases h : c.closed = true
  · simp [h]
  · by_cases h2 : c.buf.length < c.cap
    · simp [h, h2]
    · simp [h, h2]

theorem chan_send_eq_wait (c : Chan) (x : String) :
    c.send x = Outcome.wait ↔ c.closed = false ∧ c.cap ≤ c.buf.length := by
  unfold Chan.send
  by_cases h : c.closed = true
  · simp [h]
  · by_cases h2 : c.buf.length < c.cap
    · simp [h, h2]
    · simp [h, h2]
      omega

theorem chan_recv_eq_next (c c1 : Chan) (r : Option String) :
    c.recv = Outcome.next (r, c1) ↔
      (∃ x rest, c.buf = x :: rest ∧ r = some x ∧ c1 = { c with buf := rest }) ∨
      (c.buf = [] ∧ c.closed = true ∧ r = none ∧ c1 = c) := by
  unfold Chan.recv
  cases hb : c.buf with
  | nil =>
    by_cases h : c.closed = true
    · simp only [h, if_true, Outcome.next.injEq, Prod.mk.injEq]
      constructor
      · rintro ⟨h1, h2⟩
        exact Or.inr ⟨trivial, trivial, h1.symm, h2.symm⟩
      · rintro (⟨x, rest, h1, _⟩ | ⟨_, _, h1, h2⟩)
        · cases h1
        · exact ⟨h1.symm, h2.symm⟩
    · simp [h]
  | cons x rest =>
    simp only [Outcome.next.injEq, Prod.mk.injEq]
    constructor
    · rintro ⟨h1, h2⟩
      exact Or.inl ⟨x, rest, rfl, h1.symm, h2.symm⟩
    · rintro (⟨y, rest1, h1, h2, h3⟩ | ⟨h1, _⟩)
      · cases h1
        exact ⟨h2.symm, h3.symm⟩
      · cases h1

theorem chan_recv_ne_panic (c : Chan) : c.recv ≠ Outcome.panic := by
  unfold Chan.recv
  cases c.buf with
  | nil => by_cases h : c.closed = true <;> simp [h]
  | cons x rest => simp

theorem chan_recv_eq_wait (c : Chan) :
    c.recv = Outcome.wait ↔ c.buf = [] ∧ c.closed = false := by
  unfold Chan.recv
  cases hb : c.buf with
  | nil => by_cases h : c.closed = true <;> simp [h]
  | cons x rest => simp

theorem chan_close_eq_next (c c1 : Chan) :
    c.close = Outcome.next c1 ↔
      c.closed = false ∧ c1 = { c with closed := true, closes := c.closes + 1 } := by
  unfold Chan.close
  by_cases h : c.closed = true
  · simp [h]
  · simp [h, eq_comm]

theorem chan_close_eq_panic (c : Chan) : c.close = Outcome.panic ↔ c.closed = true := by
  unfold Chan.close
  by_cases h : c.closed = true
  · simp [h]
  · simp [h]

theorem chan_close_ne_wait (c : Chan) : c.close ≠ Outcome.wait := by
  unfold Chan.close
  by_cases h : c.closed = true
  · simp [h]
  · simp [h]

theorem stageStep_next (body : String → List String) (st st1 : Stage)
    (inp out inp1 out1 : Chan)
    (h : stageStep body st inp out = Outcome.next (st1, inp1, out1)) :
    StageTrans body st inp out st1 inp1 out1 := by
  unfold stageStep at h
  split at h
  · rename_i hpc
    split at h
    · rename_i x rest hpend
      rw [outcome_map_eq_next] at h
      obtain ⟨out2, hs, heq⟩ := h
      rw [chan_send_eq_next] at hs
      obtain ⟨hc, hl, rfl⟩ := hs
      simp only [Prod.mk.injEq] at heq
      obtain ⟨rfl, rfl, rfl⟩ := heq
      exact StageTrans.send st inp out x rest hpc hpend hc hl
    · rename_i hpend
      rw [outcome_map_eq_next] at h
      obtain ⟨⟨r, inp2⟩, hr, heq⟩ := h
      rw [chan_recv_eq_next] at hr
      rcases hr with ⟨x, rest, hb, hr1, hr2⟩ | ⟨hb, hc, hr1, hr2⟩
      · subst hr1 hr2
        simp only [Prod.mk.injEq] at heq
        obtain ⟨rfl, rfl, rfl⟩ := heq
        exact StageTrans.recv st inp out x rest hpc hpend hb
      · subst hr1 hr2
        simp only [Prod.mk.injEq] at heq
        obtain ⟨rfl, rfl, rfl⟩ := heq
        exact StageTrans.leave st _ out hpc hpend hb hc
  · rename_i hpc
    rw [outcome_map_eq_next] at h
    obtain ⟨out2, hs, heq⟩ := h
    rw [chan_close_eq_next] at hs
    obtain ⟨hc, rfl⟩ := hs
    simp only [Prod.mk.injEq] at heq
    obtain ⟨rfl, rfl, rfl⟩ := heq
    exact StageTrans.close st inp out hpc hc
  · cases h

theorem stageStep_panic (body : String → List String) (st : Stage) (inp out : Chan)
    (h : stageStep body st inp out = Outcome.panic) :
    st.pc ≠ Pc.finished ∧ out.closed = true := by
  unfold stageStep at h
  split at h
  · rename_i hpc
    split at h
    · rw [outcome_map_eq_panic, chan_send_eq_panic] at h
      exact ⟨by simp [hpc], h⟩
    · rw [outcome_map_eq_panic] at h
      exact absurd h (chan_recv_ne_panic inp)
  · rename_i hpc
    rw [outcome_map_eq_panic, chan_close_eq_panic] at h
    exact ⟨by simp [hpc], h⟩
  · cases h

theorem sourceStep_next (pc pc1 : Pc) (files files1 : List String) (out out1 : Chan)
    (h : sourceStep pc files out = Outcome.next (pc1, files1, out1)) :
    SourceTrans pc files out pc1 files1 out1 := by
  unfold sourceStep at h
  split at h
  · split at h
    · rename_i x rest
      rw [outcome_map_eq_next] at h
      obtain ⟨out2, hs, heq⟩ := h
      rw [chan_send_eq_next] at hs
      obtain ⟨hc, hl, rfl⟩ := hs
      simp only [Prod.mk.injEq] at heq
      obtain ⟨rfl, rfl, rfl⟩ := heq
      exact SourceTrans.send Pc.looping (x :: rest) out x rest rfl rfl hc hl
    · simp only [Outcome.next.injEq, Prod.mk.injEq] at h
      obtain ⟨rfl, rfl, rfl⟩ := h
      exact SourceTrans.leave Pc.looping [] out rfl rfl
  · rw [outcome_map_eq_next] at h
    obtain ⟨out2, hs, heq⟩ := h
    rw [chan_close_eq_next] at hs
    obtain ⟨hc, rfl⟩ := hs
    simp only [Prod.mk.injEq] at heq
    obtain ⟨rfl, rfl, rfl⟩ := heq
    exact SourceTrans.close Pc.closing files out rfl hc
  · cases h

theorem sourceStep_panic (pc : Pc) (files : List String) (out : Chan)
    (h : sourceStep pc files out = Outcome.panic) :
    pc ≠ Pc.finished ∧ out.closed = true := by
  unfold sourceStep at h
  split at h
  · split at h
    · rw [outcome_map_eq_panic, chan_send_eq_panic] at h
      exact ⟨by simp, h⟩
    · cases h
  · rw [outcome_map_eq_panic, chan_close_eq_panic] at h
    exact ⟨by simp, h⟩
  · cases h

theorem mainStep_next (s s1 : State) (h : mainStep s = Outcome.next s1) : MainTrans s s1 := by
  unfold mainStep at h
  split at h
  · rename_i hpc
    simp only [Outcome.next.injEq] at h
    subst h
    exact MainTrans.callSource s hpc
  · rename_i hpc
    simp only [Outcome.next.injEq] at h
    subst h
    exact MainTrans.callFilterSuffixes s hpc
  · rename_i hpc
    simp only [Outcome.next.injEq] at h
    subst h
    exact MainTrans.callFilterSize s hpc
  · rename_i hpc
    rw [outcome_map_eq_next] at h
    obtain ⟨⟨r, c⟩, hr, heq⟩ := h
    rw [chan_recv_eq_next] at hr
    rcases hr with ⟨x, rest, hb, hr1, hr2⟩ | ⟨hb, hc, hr1, hr2⟩
    · subst hr1 hr2 heq
      exact MainTrans.print s x rest hpc hb
    · subst hr1 hr2 heq
      exact MainTrans.ret s hpc hb hc
  · cases h

theorem mainStep_ne_panic (s : State) : mainStep s ≠ Outcome.panic := by
  unfold mainStep
  split
  · simp
  · simp
  · simp
  · rw [Ne, outcome_map_eq_panic]
    exact chan_recv_ne_panic s.c3
  · simp

theorem started_size_iff (pc : MainPc) (hr : pc ≠ MainPc.returned) :
    started pc Goroutine.size = true ↔ pc = MainPc.sinking := by
  cases pc <;> simp [started] at hr ⊢

/-- Every transition taken by `step` is one of the transitions of `Trans`. -/
theorem step_trans (b1 b2 : String → List String) (g : Goroutine) (s s1 : State)
    (h : step b1 b2 g s = some s1) :
    s.panicked = false ∧ s.mainPc ≠ MainPc.returned ∧ Trans b1 b2 s s1 := by
  unfold step at h
  split at h
  · cases h
  · rename_i hguard
    simp only [not_or, Bool.not_eq_true, Bool.not_eq_false] at hguard
    obtain ⟨hp, hr, hst⟩ := hguard
    refine ⟨hp, hr, ?_⟩
    split at h
    · cases h
    · rename_i hgo
      simp only [Option.some.injEq] at h
      subst h
      cases g with
      | main => exact absurd hgo (mainStep_ne_panic s)
      | source =>
        simp only [goStep, outcome_map_eq_panic] at hgo
        have hs := sourceStep_panic _ _ _ hgo
        simp only [started, decide_eq_true_eq] at hst
        exact Trans.sourcePanic s hst hs.1 hs.2
      | suffixes =>
        simp only [goStep, outcome_map_eq_panic] at hgo
        have hs := stageStep_panic _ _ _ _ hgo
        simp only [started, decide_eq_true_eq] at hst
        exact Trans.suffixesPanic s hst.1 hst.2 hs.1 hs.2
      | size =>
        simp only [goStep, outcome_map_eq_panic] at hgo
        have hs := stageStep_panic _ _ _ _ hgo
        rw [started_size_iff _ hr] at hst
        exact Trans.sizePanic s hst hs.1 hs.2
    · rename_i s2 hgo
      simp only [Option.some.injEq] at h
      subst h
      cases g with
      | main => exact Trans.main s s2 (mainStep_next s s2 hgo)
      | source =>
        simp only [goStep, outcome_map_eq_next] at hgo
        obtain ⟨⟨pc, files, c⟩, hs, rfl⟩ := hgo
        simp only [started, decide_eq_true_eq] at hst
        exact Trans.source s pc files c hst (sourceStep_next _ _ _ _ _ _ hs)
      | suffixes =>
        simp only [goStep, outcome_map_eq_next] at hgo
        obtain ⟨⟨st, inp, out⟩, hs, rfl⟩ := hgo
        simp only [started, decide_eq_true_eq] at hst
        exact Trans.suffixes s st inp out hst.1 hst.2 (stageStep_next _ _ _ _ _ _ _ hs)
      | size =>
        simp only [goStep, outcome_map_eq_next] at hgo
        obtain ⟨⟨st, inp, out⟩, hs, rfl⟩ := hgo
        rw [started_size_iff _ hr] at hst
        exact Trans.size s st inp out hst (stageStep_next _ _ _ _ _ _ _ hs)

/-! ## Goroutine view: the invariant -/

theorem inv_init (files : List String) : Inv (State.init files) := by
  constructor <;> simp [State.init, Chan.make]

set_option maxHeartbeats 1000000 in
theorem inv_main_trans (s s1 : State) (hinv : Inv s) (hm : MainTrans s s1) : Inv s1 := by
  obtain ⟨noPanic, new1, new2, new3, cap1, cap2, cap3, room1, room2, room3, closed1, closed2,
    closed3, closes1, closes2, closes3, srcDone, sfxDone, sizDone, ret⟩ := hinv
  cases hm with
  | callSource hpc =>
    constructor <;> simp_all [Chan.make]
  | callFilterSuffixes hpc => 
    constructor <;> simp_all [Chan.make]
  | callFilterSize hpc => 
    constructor <;> simp_all [Chan.make]
  | print x rest hpc hb => 
    constructor <;> simp_all [Chan.make]
    omega
  | ret hpc hb hc => 
    constructor <;> simp_all [Chan.make]

set_option maxHeartbeats 1000000 in
theorem inv_source_trans (s : State) (pc : Pc) (files : List String) (c : Chan) (hinv : Inv s)
    (hst : s.mainPc ≠ MainPc.callSource)
    (hsrc : SourceTrans s.srcPc s.files s.c1 pc files c) :
    Inv { s with srcPc := pc, files := files, c1 := c } := by
  obtain ⟨noPanic, new1, new2, new3, cap1, cap2, cap3, room1, room2, room3, closed1, closed2,
    closed3, closes1, closes2, closes3, srcDone, sfxDone, sizDone, ret⟩ := hinv
  cases hsrc with
  | send x rest hp hf hc hl => 
    constructor <;> simp_all [Chan.make]
    omega
  | leave hp hf => 
    constructor <;> simp_all [Chan.make]
  | close hp hc => 
    constructor <;> simp_all [Chan.make]

set_option maxHeartbeats 2000000 in
theorem inv_suffixes_trans (b1 : String → List String) (s : State) (st : Stage)
    (inp out : Chan) (hinv : Inv s)
    (h1 : s.mainPc ≠ MainPc.callSource) (h2 : s.mainPc ≠ MainPc.callFilterSuffixes)
    (hstage : StageTrans b1 s.sfx s.c1 s.c2 st inp out) :
    Inv { s with sfx := st, c1 := inp, c2 := out } := by
  obtain ⟨noPanic, new1, new2, new3, cap1, cap2, cap3, room1, room2, room3, closed1, closed2,
    closed3, closes1, closes2, closes3, srcDone, sfxDone, sizDone, ret⟩ := hinv
  cases hstage with
  | send x rest hp hpend hc hl =>
    constructor <;> simp_all [Chan.make]
    omega
  | recv x rest hp hpend hb =>
    constructor <;> simp_all [Chan.make]
    omega
  | leave hp hpend hb hc =>
    constructor <;> simp_all [Chan.make]
  | close hp hc =>
    constructor <;> simp_all [Chan.make]

set_option maxHeartbeats 2000000 in
theorem inv_size_trans (b2 : String → List String) (s : State) (st : Stage)
    (inp out : Chan) (hinv : Inv s)
    (h1 : s.mainPc = MainPc.sinking)
    (hstage : StageTrans b2 s.siz s.c2 s.c3 st inp out) :
    Inv { s with siz := st, c2 := inp, c3 := out } := by
  obtain ⟨noPanic, new1, new2, new3, cap1, cap2, cap3, room1, room2, room3, closed1, closed2,
    closed3, closes1, closes2, closes3, srcDone, sfxDone, sizDone, ret⟩ := hinv
  cases hstage with
  | send x rest hp hpend hc hl =>
    constructor <;> simp_all [Chan.make]
    omega
  | recv x rest hp hpend hb =>
    constructor <;> simp_all [Chan.make]
    omega
  | leave hp hpend hb hc =>
    constructor <;> simp_all [Chan.make]
  | close hp hc =>
    constructor <;> simp_all [Chan.make]

/-- Every transition preserves the invariant. -/
theorem inv_trans (b1 b2 : String → List String) (s s1 : State) (hinv : Inv s)
    (ht : Trans b1 b2 s s1) : Inv s1 := by
  cases ht with
  | main s1 hm => exact inv_main_trans s s1 hinv hm
  | source pc files c hst hsrc => exact inv_source_trans s pc files c hinv hst hsrc
  | suffixes st inp out h1 h2 hstage => exact inv_suffixes_trans b1 s st inp out hinv h1 h2 hstage
  | size st inp out h1 hstage => exact inv_size_trans b2 s st inp out hinv h1 hstage
  | sourcePanic h1 h2 h3 => exact absurd (hinv.closed1.mp h3) h2
  | suffixesPanic h1 h2 h3 h4 => exact absurd (hinv.closed2.mp h4) h3
  | sizePanic h1 h2 h3 => exact absurd (hinv.closed3.mp h3) h2

/-! ## Goroutine view: termination measure -/

theorem stageTrans_weight (body : String → List String) (hbody : ∀ x, (body x).length ≤ 1)
    (st st1 : Stage) (inp out inp1 out1 : Chan) (a b c : Nat) (hab : b < a) (hbc : c < b)
    (h : StageTrans body st inp out st1 inp1 out1) :
    st1.pc.weight + a * inp1.buf.length + b * st1.pending.length + c * out1.buf.length <
      st.pc.weight + a * inp.buf.length + b * st.pending.length + c * out.buf.length := by
  cases h with
  | send x rest hp hpend hc hl =>
    simp only [hpend, List.length_cons, List.length_append, List.length_nil, mul_add, mul_one]
    omega
  | recv x rest hp hpend hb =>
    have := hbody x
    have h2 : b * (body x).length ≤ b * 1 := Nat.mul_le_mul_left b this
    simp only [hpend, hb, List.length_cons, List.length_nil, mul_add, mul_one, mul_zero]
    omega
  | leave hp hpend hb hc =>
    simp only [hp, Pc.weight]
    omega
  | close hp hc =>
    simp only [hp, Pc.weight]
    omega

theorem sourceTrans_weight (pc pc1 : Pc) (files files1 : List String) (out out1 : Chan)
    (h : SourceTrans pc files out pc1 files1 out1) :
    pc1.weight + 6 * files1.length + 5 * out1.buf.length <
      pc.weight + 6 * files.length + 5 * out.buf.length := by
  cases h with
  | send x rest hp hf hc hl =>
    simp only [hp, hf, List.length_cons, List.length_append, List.length_nil]
    omega
  | leave hp hf =>
    simp only [hp, hf, Pc.weight]
    omega
  | close hp hc =>
    simp only [hp, Pc.weight]
    omega

theorem mainTrans_measure_lt (s s1 : State) (h : MainTrans s s1) : s1.measure < s.measure := by
  cases h with
  | callSource hpc =>
    simp only [State.measure, hpc, MainPc.weight, Chan.make, List.length_nil]
    omega
  | callFilterSuffixes hpc =>
    simp only [State.measure, hpc, MainPc.weight, Chan.make, List.length_nil]
    omega
  | callFilterSize hpc =>
    simp only [State.measure, hpc, MainPc.weight, Chan.make, List.length_nil]
    omega
  | print x rest hpc hb =>
    simp only [State.measure, hpc, hb, MainPc.weight, List.length_cons]
    omega
  | ret hpc hb hc =>
    simp only [State.measure, hpc, MainPc.weight]
    omega

/-- Every transition lowers the measure, when a loop body sends at most one
value for a received value. -/
theorem trans_measure_lt (b1 b2 : String → List String)
    (hb1 : ∀ x, (b1 x).length ≤ 1) (hb2 : ∀ x, (b2 x).length ≤ 1)
    (s s1 : State) (hp : s.panicked = false) (h : Trans b1 b2 s s1) :
    s1.measure < s.measure := by
  cases h with
  | main s1 hm => exact mainTrans_measure_lt s s1 hm
  | source pc files c hst hsrc =>
    have := sourceTrans_weight _ _ _ _ _ _ hsrc
    simp only [State.measure]
    omega
  | suffixes st inp out h1 h2 hstage =>
    have := stageTrans_weight b1 hb1 _ _ _ _ _ _ 5 4 3 (by omega) (by omega) hstage
    simp only [State.measure]
    omega
  | size st inp out h1 hstage =>
    have := stageTrans_weight b2 hb2 _ _ _ _ _ _ 3 2 1 (by omega) (by omega) hstage
    simp only [State.measure]
    omega
  | sourcePanic h1 h2 h3 =>
    simp [State.measure, hp]
  | suffixesPanic h1 h2 h3 h4 =>
    simp [State.measure, hp]
  | sizePanic h1 h2 h3 =>
    simp [State.measure, hp]

/-! ## Goroutine view: the printed output -/

theorem runStage_append (body : String → List String) (xs ys : List String) :
    runStage body (xs ++ ys) = runStage body xs ++ runStage body ys := by
  induction xs with
  | nil => rfl
  | cons x xs ih => simp [runStage, ih]

/-- No transition changes the lines that will eventually have been printed. -/
theorem trans_eventual_eq (b1 b2 : String → List String) (s s1 : State) (hinv : Inv s)
    (h : Trans b1 b2 s s1) : s1.eventual b1 b2 = s.eventual b1 b2 := by
  cases h with
  | main s1 hm =>
    cases hm with
    | callSource hpc =>
      have h1 := (hinv.new1 hpc).2
      simp [State.eventual, h1, Chan.make]
    | callFilterSuffixes hpc =>
      have h1 := (hinv.new2 (Or.inr hpc)).2
      simp [State.eventual, h1, Chan.make]
    | callFilterSize hpc =>
      have h1 := (hinv.new3 (by simp [hpc]) (by simp [hpc])).2
      simp [State.eventual, h1, Chan.make]
    | print x rest hpc hb =>
      simp [State.eventual, hb]
    | ret hpc hb hc =>
      simp [State.eventual]
  | source pc files c hst hsrc =>
    cases hsrc with
    | send x rest hp hf hc hl =>
      simp [State.eventual, hf]
    | leave hp hf =>
      simp [State.eventual, hf]
    | close hp hc =>
      simp [State.eventual]
  | suffixes st inp out h1 h2 hstage =>
    cases hstage with
    | send x rest hp hpend hc hl =>
      simp [State.eventual, hpend]
    | recv x rest hp hpend hb =>
      simp [State.eventual, hpend, hb, runStage, runStage_append]
    | leave hp hpend hb hc =>
      simp [State.eventual]
    | close hp hc =>
      simp [State.eventual]
  | size st inp out h1 hstage =>
    cases hstage with
    | send x rest hp hpend hc hl =>
      simp [State.eventual, hpend]
    | recv x rest hp hpend hb =>
      simp [State.eventual, hpend, hb, runStage, runStage_append]
    | leave hp hpend hb hc =>
      simp [State.eventual]
    | close hp hc =>
      simp [State.eventual]
  | sourcePanic h1 h2 h3 =>
    simp [State.eventual]
  | suffixesPanic h1 h2 h3 h4 =>
    simp [State.eventual]
  | sizePanic h1 h2 h3 =>
    simp [State.eventual]

/-! ## Goroutine view: absence of deadlock -/

theorem step_eq_none (b1 b2 : String → List String) (g : Goroutine) (s : State)
    (hp : s.panicked = false) (hr : s.mainPc ≠ MainPc.returned)
    (hst : started s.mainPc g = true) (h : step b1 b2 g s = none) :
    goStep b1 b2 s g = Outcome.wait := by
  unfold step at h
  rw [if_neg (by simp [hp, hr, hst])] at h
  split at h
  · assumption
  · cases h
  · cases h

theorem stageStep_eq_wait (body : String → List String) (st : Stage) (inp out : Chan)
    (h : stageStep body st inp out = Outcome.wait) :
    st.pc = Pc.finished ∨
    (st.pending ≠ [] ∧ out.closed = false ∧ out.cap ≤ out.buf.length) ∨
    (inp.buf = [] ∧ inp.closed = false) := by
  unfold stageStep at h
  split at h
  · split at h
    · rename_i x rest hpend
      rw [outcome_map_eq_wait, chan_send_eq_wait] at h
      exact Or.inr (Or.inl ⟨by simp [hpend], h.1, h.2⟩)
    · rw [outcome_map_eq_wait, chan_recv_eq_wait] at h
      exact Or.inr (Or.inr h)
  · rw [outcome_map_eq_wait] at h
    exact absurd h (chan_close_ne_wait out)
  · rename_i hpc
    exact Or.inl hpc

theorem sourceStep_eq_wait (pc : Pc) (files : List String) (out : Chan)
    (h : sourceStep pc files out = Outcome.wait) :
    pc = Pc.finished ∨ (out.closed = false ∧ out.cap ≤ out.buf.length) := by
  unfold sourceStep at h
  split at h
  · split at h
    · rw [outcome_map_eq_wait, chan_send_eq_wait] at h
      exact Or.inr h
    · cases h
  · rw [outcome_map_eq_wait] at h
    exact absurd h (chan_close_ne_wait out)
  · exact Or.inl rfl

theorem mainStep_eq_wait (s : State) (hr : s.mainPc ≠ MainPc.returned)
    (h : mainStep s = Outcome.wait) :
    s.mainPc = MainPc.sinking ∧ s.c3.buf = [] ∧ s.c3.closed = false := by
  unfold mainStep at h
  split at h
  · cases h
  · cases h
  · cases h
  · rename_i hpc
    rw [outcome_map_eq_wait, chan_recv_eq_wait] at h
    exact ⟨hpc, h⟩
  · rename_i hpc
    exact absurd hpc hr

/-- No deadlock: in a state satisfying the invariant in which `main` has not
returned, some goroutine can take a step. -/
theorem inv_progress (b1 b2 : String → List String) (s : State) (hinv : Inv s)
    (hr : s.mainPc ≠ MainPc.returned) : ∃ g s1, step b1 b2 g s = some s1 := by
  by_contra hcon
  have hnone : ∀ g, step b1 b2 g s = none := by
    intro g
    cases hg : step b1 b2 g s with
    | none => rfl
    | some s1 => exact absurd ⟨g, s1, hg⟩ hcon
  have hp := hinv.noPanic
  have hmain := mainStep_eq_wait s hr
    (step_eq_none b1 b2 Goroutine.main s hp hr (by simp [started]) (hnone _))
  obtain ⟨hpc, hbuf3, hopen3⟩ := hmain
  have hsiz := step_eq_none b1 b2 Goroutine.size s hp hr (by simp [started, hpc]) (hnone _)
  have hsfx := step_eq_none b1 b2 Goroutine.suffixes s hp hr (by simp [started, hpc]) (hnone _)
  have hsrc := step_eq_none b1 b2 Goroutine.source s hp hr (by simp [started, hpc]) (hnone _)
  simp only [goStep, outcome_map_eq_wait] at hsiz hsfx hsrc
  have hcap1 := hinv.cap1 (by simp [hpc])
  have hcap2 := hinv.cap2 (by simp [hpc]) (by simp [hpc])
  have hcap3 := hinv.cap3 (Or.inl hpc)
  rcases stageStep_eq_wait _ _ _ _ hsiz with h | ⟨_, _, h⟩ | ⟨hbuf2, hopen2⟩
  · rw [← hinv.closed3, hopen3] at h
    cases h
  · rw [hbuf3, hcap3] at h
    simp at h
  · rcases stageStep_eq_wait _ _ _ _ hsfx with h | ⟨_, _, h⟩ | ⟨hbuf1, hopen1⟩
    · rw [← hinv.closed2, hopen2] at h
      cases h
    · rw [hbuf2, hcap2] at h
      simp at h
    · rcases sourceStep_eq_wait _ _ _ hsrc with h | ⟨_, h⟩
      · rw [← hinv.closed1, hopen1] at h
        cases h
      · rw [hbuf1, hcap1] at h
        simp at h

/-! ## Goroutine view: executions -/

theorem eventual_init (b1 b2 : String → List String) (files : List String) :
    (State.init files).eventual b1 b2 = runStage b2 (runStage b1 files) := by
  simp [State.eventual, State.init, Chan.make]

/-- Every reachable state satisfies the invariant and will eventually have
printed the output of the stream view. -/
theorem reachable_inv (b1 b2 : String → List String) (files : List String) (s : State)
    (h : Reachable b1 b2 files s) :
    Inv s ∧ s.eventual b1 b2 = runStage b2 (runStage b1 files) := by
  induction h with
  | start => exact ⟨inv_init files, eventual_init b1 b2 files⟩
  | step g s s1 _ hstep ih =>
    have ht := (step_trans b1 b2 g s s1 hstep).2.2
    exact ⟨inv_trans b1 b2 s s1 ih.1 ht, (trans_eventual_eq b1 b2 s s1 ih.1 ht).trans ih.2⟩

theorem reachable_steps (b1 b2 : String → List String) (files : List String) (n : Nat)
    (s s1 : State) (hs : Steps b1 b2 n s s1) (h : Reachable b1 b2 files s) :
    Reachable b1 b2 files s1 := by
  induction hs with
  | zero s => exact h
  | succ n g s s1 s2 hstep _ ih => exact ih (Reachable.step g s s1 h hstep)

/-- An execution is no longer than the measure of its first state. -/
theorem steps_bounded (b1 b2 : String → List String)
    (hb1 : ∀ x, (b1 x).length ≤ 1) (hb2 : ∀ x, (b2 x).length ≤ 1)
    (n : Nat) (s s1 : State) (hs : Steps b1 b2 n s s1) : n + s1.measure ≤ s.measure := by
  induction hs with
  | zero s => omega
  | succ n g s s1 s2 hstep _ ih =>
    obtain ⟨hp, _, ht⟩ := step_trans b1 b2 g s s1 hstep
    have := trans_measure_lt b1 b2 hb1 hb2 s s1 hp ht
    omega

theorem runSchedule_steps (b1 b2 : String → List String) (gs : List Goroutine) (s : State) :
    ∃ n, Steps b1 b2 n s (runSchedule b1 b2 gs s) := by
  induction gs generalizing s with
  | nil => exact ⟨0, Steps.zero s⟩
  | cons g gs ih =>
    unfold runSchedule
    cases hstep : step b1 b2 g s with
    | none => exact ih s
    | some s1 =>
      obtain ⟨n, hn⟩ := ih s1
      exact ⟨n + 1, Steps.succ n g s s1 _ hstep hn⟩

theorem runSchedule_append (b1 b2 : String → List String) (gs hs : List Goroutine) (s : State) :
    runSchedule b1 b2 (gs ++ hs) s = runSchedule b1 b2 hs (runSchedule b1 b2 gs s) := by
  induction gs generalizing s with
  | nil => rfl
  | cons g gs ih =>
    simp only [List.cons_append, runSchedule]
    cases step b1 b2 g s with
    | none => exact ih s
    | some s1 => exact ih s1

theorem runSchedule_measure_le (b1 b2 : String → List String)
    (hb1 : ∀ x, (b1 x).length ≤ 1) (hb2 : ∀ x, (b2 x).length ≤ 1)
    (gs : List Goroutine) (s : State) :
    (runSchedule b1 b2 gs s).measure ≤ s.measure := by
  obtain ⟨n, hn⟩ := runSchedule_steps b1 b2 gs s
  have := steps_bounded b1 b2 hb1 hb2 n s _ hn
  omega

theorem runSchedule_measure_lt (b1 b2 : String → List String)
    (hb1 : ∀ x, (b1 x).length ≤ 1) (hb2 : ∀ x, (b2 x).length ≤ 1)
    (gs : List Goroutine) (s : State) (g : Goroutine) (s1 : State)
    (hg : g ∈ gs) (hstep : step b1 b2 g s = some s1) :
    (runSchedule b1 b2 gs s).measure < s.measure := by
  induction gs with
  | nil => cases hg
  | cons g0 gs ih =>
    unfold runSchedule
    cases h0 : step b1 b2 g0 s with
    | some s2 =>
      obtain ⟨hp, _, ht⟩ := step_trans b1 b2 g0 s s2 h0
      have h1 := trans_measure_lt b1 b2 hb1 hb2 s s2 hp ht
      have h2 := runSchedule_measure_le b1 b2 hb1 hb2 gs s2
      simp only
      omega
    | none =>
      rcases List.mem_cons.mp hg with rfl | hmem
      · rw [hstep] at h0
        cases h0
      · exact ih hmem

theorem inv_runSchedule (b1 b2 : String → List String) (gs : List Goroutine) (s : State)
    (hinv : Inv s) : Inv (runSchedule b1 b2 gs s) := by
  induction gs generalizing s with
  | nil => exact hinv
  | cons g gs ih =>
    unfold runSchedule
    cases hstep : step b1 b2 g s with
    | none => exact ih s hinv
    | some s1 => exact ih s1 (inv_trans b1 b2 s s1 hinv (step_trans b1 b2 g s s1 hstep).2.2)

theorem runSchedule_returned (b1 b2 : String → List String) (gs : List Goroutine) (s : State)
    (hr : s.mainPc = MainPc.returned) : runSchedule b1 b2 gs s = s := by
  induction gs with
  | nil => rfl
  | cons g gs ih =>
    unfold runSchedule
    have : step b1 b2 g s = none := by simp [step, hr]
    rw [this]
    exact ih

theorem mem_round (g : Goroutine) :
    g ∈ [Goroutine.main, Goroutine.source, Goroutine.suffixes, Goroutine.size] := by
  cases g <;> simp

theorem roundRobin_succ (n : Nat) :
    roundRobin (n + 1) =
      [Goroutine.main, Goroutine.source, Goroutine.suffixes, Goroutine.size] ++ roundRobin n := by
  rfl

/-- The round-robin schedule makes `main` return within as many rounds as the
measure of the state it starts from. -/
theorem roundRobin_returns (b1 b2 : String → List String)
    (hb1 : ∀ x, (b1 x).length ≤ 1) (hb2 : ∀ x, (b2 x).length ≤ 1)
    (n : Nat) (s : State) (hinv : Inv s) (hm : s.measure ≤ n + 1) :
    (runSchedule b1 b2 (roundRobin n) s).mainPc = MainPc.returned := by
  induction n generalizing s with
  | zero =>
    have hp := hinv.noPanic
    simp only [State.measure, hp] at hm
    cases hpc : s.mainPc with
    | returned => simp [roundRobin, runSchedule, hpc]
    | _ => simp [hpc, MainPc.weight] at hm
  | succ n ih =>
    by_cases hr : s.mainPc = MainPc.returned
    · rw [runSchedule_returned b1 b2 _ s hr]
      exact hr
    · rw [roundRobin_succ, runSchedule_append]
      obtain ⟨g, s1, hstep⟩ := inv_progress b1 b2 s hinv hr
      have hlt := runSchedule_measure_lt b1 b2 hb1 hb2 _ s g s1 (mem_round g) hstep
      exact ih _ (inv_runSchedule b1 b2 _ s hinv) (by omega)

theorem reachable_runSchedule (b1 b2 : String → List String) (files : List String)
    (gs : List Goroutine) (s : State) (h : Reachable b1 b2 files s) :
    Reachable b1 b2 files (runSchedule b1 b2 gs s) := by
  obtain ⟨n, hn⟩ := runSchedule_steps b1 b2 gs s
  exact reachable_steps b1 b2 files n s _ hn h

theorem reachable_runMain (b1 b2 : String → List String) (files : List String) :
    Reachable b1 b2 files (runMain b1 b2 files) :=
  reachable_runSchedule b1 b2 files _ _ Reachable.start

theorem runMain_returned (b1 b2 : String → List String)
    (hb1 : ∀ x, (b1 x).length ≤ 1) (hb2 : ∀ x, (b2 x).length ≤ 1) (files : List String) :
    (runMain b1 b2 files).mainPc = MainPc.returned :=
  roundRobin_returns b1 b2 hb1 hb2 _ _ (inv_init files) (by omega)

/-- When `main` has returned every goroutine has ended, every channel is
closed and empty, and nothing is in flight. -/
theorem inv_at_return (s : State) (hinv : Inv s) (hr : s.mainPc = MainPc.returned) :
    (s.srcPc = Pc.finished ∧ s.sfx.pc = Pc.finished ∧ s.siz.pc = Pc.finished) ∧
    (s.c1.closes = 1 ∧ s.c2.closes = 1 ∧ s.c3.closes = 1) ∧
    (s.files = [] ∧ s.c1.buf = [] ∧ s.sfx.pending = [] ∧ s.c2.buf = [] ∧
      s.siz.pending = [] ∧ s.c3.buf = []) := by
  obtain ⟨hc3, hb3⟩ := hinv.ret hr
  have hsiz := hinv.closed3.mp hc3
  obtain ⟨hc2, hb2, hp2⟩ := hinv.sizDone (by simp [hsiz])
  have hsfx := hinv.closed2.mp hc2
  obtain ⟨hc1, hb1, hp1⟩ := hinv.sfxDone (by simp [hsfx])
  have hsrc := hinv.closed1.mp hc1
  have hf := hinv.srcDone (by simp [hsrc])
  have h1 := hinv.closes1
  have h2 := hinv.closes2
  have h3 := hinv.closes3
  simp only [hc1, hc2, hc3, if_true] at h1 h2 h3
  exact ⟨⟨hsrc, hsfx, hsiz⟩, ⟨h1, h2, h3⟩, hf, hb1, hp1, hb2, hp2, hb3⟩

/-- When `main` has returned, the lines printed are the output of the stream
view. -/
theorem reachable_printed (b1 b2 : String → List String) (files : List String) (s : State)
    (h : Reachable b1 b2 files s) (hr : s.mainPc = MainPc.returned) :
    s.printed = runStage b2 (runStage b1 files) := by
  obtain ⟨hinv, hev⟩ := reachable_inv b1 b2 files s h
  obtain ⟨_, _, hf, hb1, hp1, hb2, hp2, hb3⟩ := inv_at_return s hinv hr
  rw [← hev]
  simp [State.eventual, hf, hb1, hp1, hb2, hp2, hb3, runStage]

theorem suffixStage_length (table : Char → Char) (suffixes : List String) (x : String) :
    (suffixStage table suffixes x).length ≤ 1 := by
  rw [suffixStage_eq]
  split <;> simp

theorem sizeStage_length (stat : String → Option Int) (minSize maxSize : Int) (x : String) :
    (sizeStage stat minSize maxSize x).length ≤ 1 := by
  rw [sizeStage_eq]
  split <;> simp

/-! ## Claims on the suffix test and on the whole program -/

theorem plainTable_not_upper (c : Char) (h : 128 ≤ c.toNat) :
    isUpperASCII (plainTable c) = false := by
  cases hc : isUpperASCII (plainTable c) with
  | false => rfl
  | true =>
    rw [isUpperASCII_iff] at hc
    simp only [plainTable] at hc
    omega

/-- C8: the suffix test lowers the extension of the item and takes the
configured suffixes as they are. For a non-empty suffix list, two items whose
extensions have the same lowercase form are forwarded alike; a configured
suffix holding an ASCII upper case letter equals no lowered extension, so the
output is the one obtained with such suffixes left out of the test; `A.PDF`
passes the suffix `.pdf` and `a.pdf` does not pass the suffix `.PDF`. The case
table of `unicode.ToLower` is taken never to yield an ASCII upper case letter
for a rune above ASCII. -/
theorem suffix_test_case_rule (table : Char → Char)
    (htable : ∀ c : Char, 128 ≤ c.toNat → isUpperASCII (table c) = false)
    (suffixes : List String) (hne : suffixes ≠ []) :
    (∀ x y, strings.ToLower table (filepath.Ext x) = strings.ToLower table (filepath.Ext y) →
      (filterSuffixes table suffixes [x] = [x] ↔ filterSuffixes table suffixes [y] = [y])) ∧
    (∀ suffix item, suffix.data.any isUpperASCII = true →
      strings.ToLower table (filepath.Ext item) ≠ suffix) ∧
    (∀ input, filterSuffixes table suffixes input =
      input.filter (suffixMatches table
        (suffixes.filter (fun suffix => !suffix.data.any isUpperASCII)))) ∧
    filterSuffixes table [".pdf"] ["A.PDF"] = ["A.PDF"] ∧
    filterSuffixes table [".PDF"] ["a.pdf"] = [] := by
  have hno : ∀ suffix item, suffix.data.any isUpperASCII = true →
      strings.ToLower table (filepath.Ext item) ≠ suffix := by
    intro suffix item hup heq
    have := ToLower_no_upper table htable (filepath.Ext item)
    rw [heq, hup] at this
    cases this
  refine ⟨?_, hno, ?_, ?_, ?_⟩
  · intro x y hxy
    have hx := filterSuffixes_matching table suffixes [x] hne
    have hy := filterSuffixes_matching table suffixes [y] hne
    rw [hx, hy]
    simp only [List.filter_cons, List.filter_nil, suffixMatches, hxy]
    split <;> simp
  · intro input
    rw [filterSuffixes_matching table suffixes input hne]
    congr 1
    funext item
    simp only [suffixMatches, decide_eq_decide, List.mem_filter, Bool.not_eq_true']
    constructor
    · intro hmem
      refine ⟨hmem, ?_⟩
      cases hup : (strings.ToLower table (filepath.Ext item)).data.any isUpperASCII with
      | false => rfl
      | true => exact absurd rfl (hno _ item hup)
    · intro hmem
      exact hmem.1
  · rfl
  · rfl

/-- Witness of C8: with the suffixes `.PDF` and `.pdf` only `.pdf` takes part
in the test, and it accepts `A.PDF` as well as `a.pdf`. -/
theorem suffix_test_case_rule_witness :
    filterSuffixes plainTable [".PDF", ".pdf"] ["a.pdf", "A.PDF", "b.txt"] =
      ["a.pdf", "A.PDF", "b.txt"].filter (suffixMatches plainTable [".pdf"]) ∧
    filterSuffixes plainTable [".pdf"] ["A.PDF"] = ["A.PDF"] ∧
    filterSuffixes plainTable [".PDF"] ["a.pdf"] = [] :=
  have h := suffix_test_case_rule plainTable plainTable_not_upper [".PDF", ".pdf"] (by decide)
  ⟨h.2.2.1 ["a.pdf", "A.PDF", "b.txt"], h.2.2.2⟩

theorem stream_eq_filter (table : Char → Char) (stat : String → Option Int)
    (minSize maxSize : Int) (suffixes files : List String) :
    sink (filterSize stat minSize maxSize (filterSuffixes table suffixes (source files))) =
      files.filter (fun p => passesSuffixes table suffixes p && passesSize stat minSize maxSize p) := by
  rw [sink, source, forward_eq, forward_eq, filterSize_eq_filter_passes,
    filterSuffixes_eq_filter_passes, List.filter_filter]
  congr 1
  funext p
  exact Bool.and_comm _ _

theorem passesSuffixes_iff (table : Char → Char) (suffixes : List String) (p : String) :
    passesSuffixes table suffixes p = true ↔
      suffixes = [] ∨ strings.ToLower table (filepath.Ext p) ∈ suffixes := by
  unfold passesSuffixes filterSuffixes
  by_cases h : suffixes.length = 0
  · have hnil : suffixes = [] := List.length_eq_zero.mp h
    simp [hnil, forward]
  · have hne : suffixes ≠ [] := fun hnil => h (by simp [hnil])
    simp only [h, if_false, suffixLoop, List.append_nil, suffixBody_eq, decide_eq_true_eq]
    by_cases hm : suffixMatches table suffixes p = true
    · have hm2 := hm
      simp only [suffixMatches, decide_eq_true_eq] at hm2
      simp [hm, hm2]
    · have hm2 := hm
      simp only [suffixMatches, decide_eq_true_eq] at hm2
      simp [hm, hm2, hne]

theorem passesSize_iff (stat : String → Option Int) (minSize maxSize : Int) (p : String) :
    passesSize stat minSize maxSize p = true ↔
      (minSize = -1 ∧ maxSize = -1) ∨
      ∃ size, stat p = some size ∧ (minSize = -1 ∨ (-1 < minSize ∧ minSize < size)) ∧
        (maxSize = -1 ∨ (-1 < maxSize ∧ size < maxSize)) := by
  unfold passesSize filterSize
  by_cases h : minSize = -1 ∧ maxSize = -1
  · simp [h, forward]
  · simp only [h, if_false, sizeLoop, List.append_nil, sizeBody, decide_eq_true_eq, false_or]
    cases hs : stat p with
    | none => simp
    | some size =>
      simp only [Option.some.injEq, exists_eq_left']
      split
      · rename_i hc
        simp [hc]
      · rename_i hc
        simp [hc]

/-- C4: for a configuration accepted by `handleCommandLine`, the lines printed
by `main` are the input paths that the suffix stage and the size stage both
forward, in the order and multiplicity of the input list, hence a sublist of
it. This holds of the composed loops and of every execution of the goroutines
that ends with `main` returning. A path is forwarded by the suffix stage when
the suffix list is empty or holds its lowered extension, and by the size stage
when both bounds are `-1` or its stat succeeds with a size that passes the test
of the code. -/
theorem main_prints_passing_items (table : Char → Char) (stat : String → Option Int)
    (minFlag maxFlag : Int) (suffixesOpt : String) (args : List String)
    (minSize maxSize : Int) (suffixes files : List String)
    (hv : handleCommandLine minFlag maxFlag suffixesOpt args =
      Except.ok (minSize, maxSize, suffixes, files)) :
    main table stat minFlag maxFlag suffixesOpt args =
      Except.ok (files.filter
        (fun p => passesSuffixes table suffixes p && passesSize stat minSize maxSize p)) ∧
    (files.filter
      (fun p => passesSuffixes table suffixes p && passesSize stat minSize maxSize p)).Sublist
        files ∧
    (∀ s, Reachable (suffixStage table suffixes) (sizeStage stat minSize maxSize) files s →
      s.mainPc = MainPc.returned →
      s.printed = files.filter
        (fun p => passesSuffixes table suffixes p && passesSize stat minSize maxSize p)) ∧
    (∀ p, passesSuffixes table suffixes p = true ↔
      suffixes = [] ∨ strings.ToLower table (filepath.Ext p) ∈ suffixes) ∧
    (∀ p, passesSize stat minSize maxSize p = true ↔
      (minSize = -1 ∧ maxSize = -1) ∨
      ∃ size, stat p = some size ∧ (minSize = -1 ∨ (-1 < minSize ∧ minSize < size)) ∧
        (maxSize = -1 ∨ (-1 < maxSize ∧ size < maxSize))) := by
  refine ⟨?_, List.filter_sublist _, ?_, passesSuffixes_iff table suffixes,
    passesSize_iff stat minSize maxSize⟩
  · unfold main
    rw [hv]
    simp only
    rw [stream_eq_filter]
  · intro s hreach hr
    rw [reachable_printed _ _ files s hreach hr, ← filterSuffixes_eq_runStage,
      ← filterSize_eq_runStage, ← stream_eq_filter, sink, source, forward_eq, forward_eq]

/-- Witness of C4: the scenario of the specification prints `report.pdf`
only, and `[a, b, c, d]` with `b` and `d` passing prints `b` then `d`. -/
theorem main_prints_passing_items_witness :
    main plainTable scenarioStat (-1) 2000 ".pdf,.txt" ["report.pdf", "notes.txt", "image.png"] =
      Except.ok ["report.pdf"] ∧
    main plainTable abcdStat (-1) 10 "" ["a", "b", "c", "d"] = Except.ok ["b", "d"] ∧
    (runMain (suffixStage plainTable []) (sizeStage abcdStat (-1) 10) ["a", "b", "c", "d"]).printed =
      ["b", "d"] :=
  have h1 := main_prints_passing_items plainTable scenarioStat (-1) 2000 ".pdf,.txt"
    ["report.pdf", "notes.txt", "image.png"] (-1) 2000 [".pdf", ".txt"]
    ["report.pdf", "notes.txt", "image.png"] (by rfl)
  have h2 := main_prints_passing_items plainTable abcdStat (-1) 10 ""
    ["a", "b", "c", "d"] (-1) 10 [] ["a", "b", "c", "d"] (by rfl)
  ⟨h1.1.trans (congrArg Except.ok (by decide)), h2.1.trans (congrArg Except.ok (by decide)),
    (h2.2.2.1 _ (reachable_runMain _ _ _)
      (runMain_returned _ _ (suffixStage_length _ _) (sizeStage_length _ _ _) _)).trans
      (by decide)⟩

/-- C9: in every reachable state of the process no goroutine has panicked;
the `close` counter of each channel is 0 until the goroutine that owns it has
ended and 1 from then on; a goroutine is past its loop only when its input is
exhausted (for a filter: closed and empty, with nothing left to send); some
goroutine can step as long as `main` has not returned; every execution is at
most as long as the measure; and the round-robin schedule makes `main`
return. -/
theorem pipeline_closes_once_and_returns (table : Char → Char) (stat : String → Option Int)
    (minSize maxSize : Int) (suffixes files : List String) (s : State)
    (hreach : Reachable (suffixStage table suffixes) (sizeStage stat minSize maxSize) files s) :
    s.panicked = false ∧
    (s.c1.closes = if s.srcPc = Pc.finished then 1 else 0) ∧
    (s.c2.closes = if s.sfx.pc = Pc.finished then 1 else 0) ∧
    (s.c3.closes = if s.siz.pc = Pc.finished then 1 else 0) ∧
    (s.srcPc ≠ Pc.looping → s.files = []) ∧
    (s.sfx.pc ≠ Pc.looping → s.c1.closed = true ∧ s.c1.buf = [] ∧ s.sfx.pending = []) ∧
    (s.siz.pc ≠ Pc.looping → s.c2.closed = true ∧ s.c2.buf = [] ∧ s.siz.pending = []) ∧
    (s.mainPc = MainPc.returned → s.c1.closes = 1 ∧ s.c2.closes = 1 ∧ s.c3.closes = 1) ∧
    (s.mainPc ≠ MainPc.returned →
      ∃ g s1, step (suffixStage table suffixes) (sizeStage stat minSize maxSize) g s = some s1) ∧
    (∀ n s1, Steps (suffixStage table suffixes) (sizeStage stat minSize maxSize) n s s1 →
      n ≤ s.measure) ∧
    (runSchedule (suffixStage table suffixes) (sizeStage stat minSize maxSize)
      (roundRobin s.measure) s).mainPc = MainPc.returned := by
  have hb1 := suffixStage_length table suffixes
  have hb2 := sizeStage_length stat minSize maxSize
  obtain ⟨hinv, _⟩ := reachable_inv _ _ files s hreach
  have h1 := hinv.closes1
  have h2 := hinv.closes2
  have h3 := hinv.closes3
  refine ⟨hinv.noPanic, ?_, ?_, ?_, hinv.srcDone, hinv.sfxDone, hinv.sizDone, ?_, ?_, ?_, ?_⟩
  · rw [h1]
    by_cases hc : s.c1.closed = true
    · rw [if_pos hc, if_pos (hinv.closed1.mp hc)]
    · rw [if_neg hc, if_neg (fun h => hc (hinv.closed1.mpr h))]
  · rw [h2]
    by_cases hc : s.c2.closed = true
    · rw [if_pos hc, if_pos (hinv.closed2.mp hc)]
    · rw [if_neg hc, if_neg (fun h => hc (hinv.closed2.mpr h))]
  · rw [h3]
    by_cases hc : s.c3.closed = true
    · rw [if_pos hc, if_pos (hinv.closed3.mp hc)]
    · rw [if_neg hc, if_neg (fun h => hc (hinv.closed3.mpr h))]
  · intro hr
    exact (inv_at_return s hinv hr).2.1
  · intro hr
    exact inv_progress _ _ s hinv hr
  · intro n s1 hs
    have := steps_bounded _ _ hb1 hb2 n s s1 hs
    omega
  · exact roundRobin_returns _ _ hb1 hb2 _ s hinv (by omega)

/-- Witness of C9: the run of the specification scenario under the round-robin
schedule ends with every channel closed once. -/
theorem pipeline_closes_once_and_returns_witness :
    (runMain (suffixStage plainTable [".pdf", ".txt"]) (sizeStage scenarioStat (-1) 2000)
      ["report.pdf", "notes.txt", "image.png"]).c1.closes = 1 ∧
    (runMain (suffixStage plainTable [".pdf", ".txt"]) (sizeStage scenarioStat (-1) 2000)
      ["report.pdf", "notes.txt", "image.png"]).c2.closes = 1 ∧
    (runMain (suffixStage plainTable [".pdf", ".txt"]) (sizeStage scenarioStat (-1) 2000)
      ["report.pdf", "notes.txt", "image.png"]).c3.closes = 1 :=
  (pipeline_closes_once_and_returns plainTable scenarioStat (-1) 2000 [".pdf", ".txt"]
    ["report.pdf", "notes.txt", "image.png"] _ (reachable_runMain _ _ _)).2.2.2.2.2.2.2.1
    (runMain_returned _ _ (suffixStage_length _ _) (sizeStage_length _ _ _) _)

end FilterPipeline
